import Mathlib

/-!
Shallow embedding of the rust-finder core (`crates/core/src/indexer.rs`):
the file-record store with its upsert, the indexing walk, the search
query builder together with SQLite's execution semantics for the queries
it emits, the recently-added view, and duplicate grouping.

Modelling conventions, all taken from the source:
* `chrono::DateTime<Utc>` values are stored through `.timestamp()`, so
  timestamps are modelled as `Int` epoch seconds throughout.
* `chrono::NaiveDate` is modelled as `Int` days since 1970-01-01, so that
  `date.and_hms_opt(0,0,0)...timestamp()` is `86400 * d` and the
  23:59:59 variant is `86400 * d + 86399`.  For any such date the
  `and_hms_opt` calls in `search` cannot fail, matching the source where
  they are checked only defensively.
* The SQLite table `files` is modelled as a `List FileRecord`; each SQL
  statement the source builds is given its documented SQLite semantics
  (condition filtering, `ORDER BY`, `LIMIT`/`OFFSET`, default
  ASCII-case-insensitive `LIKE`, `NULL`-rejecting `=`).
-/

namespace RustFinder

/-- `FileRecord` from indexer.rs.  `modified` and `added_at` hold the
stored integer epoch seconds (`DateTime::<Utc>::timestamp`). -/
structure FileRecord where
  path : String
  name : String
  ext : Option String
  size : Int
  modified : Int
  added_at : Int
  hash : Option String
  deriving DecidableEq, Repr

/-- `DuplicateGroup` from indexer.rs. -/
structure DuplicateGroup where
  hash : String
  size : Int
  count : Int
  paths : List String
  deriving DecidableEq, Repr

/-- `SortKey` from indexer.rs; `Name` carries `#[default]`. -/
inductive SortKey where
  | Name
  | Size
  | Modified
  deriving DecidableEq, Repr

/-- `SearchQuery` from indexer.rs; `#[derive(Default)]` gives all-absent
fields and `desc = false`, mirrored by the field defaults. -/
structure SearchQuery where
  name_like : Option String := none
  ext : Option String := none
  min_size : Option Int := none
  max_size : Option Int := none
  date_from : Option Int := none
  date_to : Option Int := none
  sort_key : Option SortKey := none
  desc : Bool := false
  limit : Option Int := none
  offset : Option Int := none
  deriving DecidableEq, Repr

/-- `FileIndexer::upsert`: `INSERT .. ON CONFLICT(path) DO UPDATE SET`
replacing `name, ext, size, modified, hash` with the excluded row's
values; `added_at` is not in the update list, so the stored value is
kept on conflict. -/
def upsert (db : List FileRecord) (r : FileRecord) : List FileRecord :=
  if db.any (fun row => row.path == r.path) then
    db.map (fun row =>
      if row.path == r.path then { r with added_at := row.added_at } else row)
  else
    db ++ [r]

/-- `SELECT .. FROM files WHERE path = ?` on the primary key. -/
def findRow (db : List FileRecord) (p : String) : Option FileRecord :=
  db.find? (fun row => row.path == p)

/-- Folding `upsert` over a list of built records, as the indexing walk
does. -/
def runIndex (db : List FileRecord) (rs : List FileRecord) : List FileRecord :=
  rs.foldl upsert db

/-- One item yielded by the `WalkDir` iterator in `index_dir`: either a
traversal error, or an entry with its `file_type().is_file()` flag and
the result of `build_record` for it (covering the fallible per-file
work). -/
inductive WalkItem where
  | fail (msg : String)
  | entry (isFile : Bool) (build : Except String FileRecord)
  deriving Repr

/-- `FileIndexer::index_dir`: walk the items in order; a traversal error
or a failed per-file build aborts immediately with that error; non-file
entries are skipped silently; each regular file is built, upserted and
counted.  Returns the resulting store contents together with the count
or the first error. -/
def index_dir : List FileRecord → List WalkItem → List FileRecord × Except String Nat
  | db, [] => (db, Except.ok 0)
  | db, WalkItem.fail e :: _ => (db, Except.error e)
  | db, WalkItem.entry false _ :: rest => index_dir db rest
  | db, WalkItem.entry true (Except.error e) :: _ => (db, Except.error e)
  | db, WalkItem.entry true (Except.ok r) :: rest =>
    match index_dir (upsert db r) rest with
    | (db1, Except.ok n) => (db1, Except.ok (n + 1))
    | (db1, Except.error e) => (db1, Except.error e)

/-- The records of the regular-file entries of a walk stream, in walk
order. -/
def fileRecords : List WalkItem → List FileRecord
  | [] => []
  | WalkItem.entry true (Except.ok r) :: rest => r :: fileRecords rest
  | _ :: rest => fileRecords rest

/-- An item that does not abort the walk. -/
def itemOk : WalkItem → Bool
  | WalkItem.fail _ => false
  | WalkItem.entry true (Except.error _) => false
  | _ => true

/-- The error an item aborts the walk with, if any. -/
def itemErr : WalkItem → Option String
  | WalkItem.fail e => some e
  | WalkItem.entry true (Except.error e) => some e
  | _ => none

/-- A walk stream of successfully built regular files only. -/
def okStream (rs : List FileRecord) : List WalkItem :=
  rs.map (fun r => WalkItem.entry true (Except.ok r))

/-- Lower timestamp bound of chrono's `DateTime::<Utc>::from_timestamp`. -/
def tsMin : Int := -8334601228800

/-- Upper timestamp bound of chrono's `DateTime::<Utc>::from_timestamp`. -/
def tsMax : Int := 8210266876799

/-- Whether `decode_timestamp` succeeds on a stored value, i.e. chrono's
`DateTime::<Utc>::from_timestamp(ts, 0)` returns `Some`. -/
def tsOk (t : Int) : Bool := decide (tsMin ≤ t ∧ t ≤ tsMax)

/-- Whether the row-mapping closure in `search` / `recently_added`
decodes this row: both stored timestamps are in chrono's range. -/
def decodesRow (r : FileRecord) : Bool := tsOk r.modified && tsOk r.added_at

/-- The row mapper: a row either decodes to itself (timestamps are the
same epoch seconds) or fails, and `filter_map(|r| r.ok())` then drops
it. -/
def decodeRow (r : FileRecord) : Option FileRecord :=
  if decodesRow r then some r else none

/-- ASCII lower-casing of one character, as SQLite's default `LIKE`
comparison and Rust's `to_ascii_lowercase` fold case. -/
def asciiLower (c : Char) : Char :=
  if 'A' ≤ c ∧ c ≤ 'Z' then Char.ofNat (c.toNat + 32) else c

/-- ASCII lower-casing of a character list. -/
def lowerChars (l : List Char) : List Char := l.map asciiLower

/-- `str::to_ascii_lowercase`. -/
def strLower (s : String) : String := String.map asciiLower s

/-- All suffixes of a list, longest first (ending with `[]`). -/
def tailsOf : List Char → List (List Char)
  | [] => [[]]
  | c :: cs => (c :: cs) :: tailsOf cs

/-- SQLite's default `LIKE` matcher: `%` matches any (possibly empty)
sequence, `_` any single character, and other characters compare
ASCII-case-insensitively (no `ESCAPE` clause is used by the source). -/
def likeMatch : List Char → List Char → Bool
  | [], s => s.isEmpty
  | p :: ps, s =>
    if p = '%' then (tailsOf s).any (fun t => likeMatch ps t)
    else
      match s with
      | [] => false
      | c :: cs =>
        (if p = '_' then true else asciiLower p == asciiLower c) && likeMatch ps cs

/-- Case-sensitive substring test (what the spec asserts of the name
filter). -/
def containsCS (hay sub : String) : Bool :=
  (tailsOf hay.toList).any (fun t => sub.toList.isPrefixOf t)

/-- ASCII-case-insensitive substring test (what SQLite's default `LIKE`
actually gives the name filter for wildcard-free needles). -/
def containsCI (hay sub : String) : Bool :=
  (tailsOf (lowerChars hay.toList)).any
    (fun t => (lowerChars sub.toList).isPrefixOf t)

/-- One WHERE predicate pushed by `search`, with its bound value. -/
inductive Cond where
  | nameLike (pat : String)
  | extEq (e : String)
  | sizeGe (n : Int)
  | sizeLe (n : Int)
  | modGe (t : Int)
  | modLe (t : Int)
  deriving DecidableEq, Repr

/-- SQLite evaluation of one predicate on a row.  `ext = ?` is
`NULL`-rejecting: a row with absent `ext` never matches. -/
def evalCond (c : Cond) (r : FileRecord) : Bool :=
  match c with
  | Cond.nameLike pat => likeMatch pat.toList r.name.toList
  | Cond.extEq e => r.ext == some e
  | Cond.sizeGe n => decide (n ≤ r.size)
  | Cond.sizeLe n => decide (r.size ≤ n)
  | Cond.modGe t => decide (t ≤ r.modified)
  | Cond.modLe t => decide (r.modified ≤ t)

/-- A bound parameter (`rusqlite::types::Value`) as the source uses it. -/
inductive SqlValue where
  | text (s : String)
  | int (n : Int)
  deriving DecidableEq, Repr

/-- `date.and_hms_opt(0,0,0)...timestamp()` for a date `d` days from
1970-01-01. -/
def startOfDay (d : Int) : Int := 86400 * d

/-- `date.and_hms_opt(23,59,59)...timestamp()`. -/
def endOfDay (d : Int) : Int := 86400 * d + 86399

/-- One optional predicate block of the builder: SQL fragment pushed to
`conds` plus the semantic condition and the value pushed to `params`. -/
def optBlock {α : Type} (o : Option α) (c : String) (f : α → Cond × SqlValue) :
    List (String × Cond × SqlValue) :=
  (o.map (fun a => (c, f a))).toList

/-- The ordered predicate blocks `search` pushes for a query, one per
present field, mirroring the `if let Some(..)` chain (empty `name_like`
or `ext` strings are filtered out exactly as in the source). -/
def condBlocks (q : SearchQuery) : List (String × Cond × SqlValue) :=
  optBlock (q.name_like.filter (fun s => !s.isEmpty)) "name LIKE ?"
      (fun s => (Cond.nameLike ("%" ++ s ++ "%"), SqlValue.text ("%" ++ s ++ "%")))
  ++ optBlock (q.ext.filter (fun s => !s.isEmpty)) "ext = ?"
      (fun s => (Cond.extEq (strLower s), SqlValue.text (strLower s)))
  ++ optBlock q.min_size "size >= ?" (fun n => (Cond.sizeGe n, SqlValue.int n))
  ++ optBlock q.max_size "size <= ?" (fun n => (Cond.sizeLe n, SqlValue.int n))
  ++ optBlock q.date_from "modified >= ?"
      (fun d => (Cond.modGe (startOfDay d), SqlValue.int (startOfDay d)))
  ++ optBlock q.date_to "modified <= ?"
      (fun d => (Cond.modLe (endOfDay d), SqlValue.int (endOfDay d)))

/-- The semantic WHERE conditions of a query. -/
def searchConds (q : SearchQuery) : List Cond :=
  (condBlocks q).map (fun b => b.2.1)

/-- The bound parameters of a query, in push order. -/
def searchParams (q : SearchQuery) : List SqlValue :=
  (condBlocks q).map (fun b => b.2.2)

/-- The ORDER BY column name for a sort key. -/
def sortColumn : SortKey → String
  | SortKey.Name => "name"
  | SortKey.Size => "size"
  | SortKey.Modified => "modified"

/-- The SQL text `search` assembles: base SELECT, WHERE joined with
" AND " when any condition is present, ORDER BY from
`sort_key.unwrap_or_default()`, DESC when requested, and `LIMIT`/`OFFSET`
whose integer values are written into the text with `format!`. -/
def searchSql (q : SearchQuery) : String :=
  "SELECT path,name,ext,size,modified,added_at,hash FROM files"
    ++ (if ((condBlocks q).map Prod.fst).isEmpty then ""
        else " WHERE " ++ String.intercalate " AND " ((condBlocks q).map Prod.fst))
    ++ " ORDER BY " ++ sortColumn (q.sort_key.getD SortKey.Name)
    ++ (if q.desc then " DESC" else "")
    ++ (match q.limit with | some n => " LIMIT " ++ toString n | none => "")
    ++ (match q.offset with | some n => " OFFSET " ++ toString n | none => "")

/-- SQLite BINARY collation on `TEXT`: memcmp on the UTF-8 bytes, which
for valid UTF-8 is lexicographic order on the code points. -/
def textLe (a b : String) : Prop := a.data ≤ b.data

instance textLeDec : DecidableRel textLe := fun a b =>
  inferInstanceAs (Decidable (a.data ≤ b.data))

/-- Row order for one sort key (BINARY order on `name`, numeric order on
`size` and `modified`). -/
def rowLe (k : SortKey) (a b : FileRecord) : Prop :=
  match k with
  | SortKey.Name => textLe a.name b.name
  | SortKey.Size => a.size ≤ b.size
  | SortKey.Modified => a.modified ≤ b.modified

instance rowLeDec (k : SortKey) : DecidableRel (rowLe k) := fun a b =>
  match k with
  | SortKey.Name => inferInstanceAs (Decidable (textLe a.name b.name))
  | SortKey.Size => inferInstanceAs (Decidable (a.size ≤ b.size))
  | SortKey.Modified => inferInstanceAs (Decidable (a.modified ≤ b.modified))

instance rowLeTotal (k : SortKey) : IsTotal FileRecord (rowLe k) :=
  ⟨fun a b => by
    cases k
    · exact le_total a.name.data b.name.data
    · exact le_total a.size b.size
    · exact le_total a.modified b.modified⟩

instance rowLeTrans (k : SortKey) : IsTrans FileRecord (rowLe k) :=
  ⟨fun a b c hab hbc => by
    cases k
    · exact le_trans hab hbc
    · exact le_trans hab hbc
    · exact le_trans hab hbc⟩

/-- The full ORDER BY relation: the chosen column, reversed on DESC. -/
def sortRel (k : SortKey) (dsc : Bool) (a b : FileRecord) : Prop :=
  match dsc with
  | true => rowLe k b a
  | false => rowLe k a b

instance sortRelDec (k : SortKey) (dsc : Bool) : DecidableRel (sortRel k dsc) :=
  fun a b =>
  match dsc with
  | true => inferInstanceAs (Decidable (rowLe k b a))
  | false => inferInstanceAs (Decidable (rowLe k a b))

instance sortRelTotal (k : SortKey) (dsc : Bool) : IsTotal FileRecord (sortRel k dsc) :=
  ⟨fun a b => by
    cases dsc
    · exact (rowLeTotal k).total a b
    · exact ((rowLeTotal k).total a b).symm⟩

instance sortRelTrans (k : SortKey) (dsc : Bool) : IsTrans FileRecord (sortRel k dsc) :=
  ⟨fun a b c hab hbc => by
    cases dsc
    · exact (rowLeTrans k).trans a b c hab hbc
    · exact (rowLeTrans k).trans c b a hbc hab⟩

/-- SQLite `OFFSET` on an ordered row list (a negative offset acts as
zero). -/
def pageOffset (offset : Option Int) (l : List FileRecord) : List FileRecord :=
  match offset with
  | none => l
  | some m => l.drop m.toNat

/-- SQLite `LIMIT`/`OFFSET` on an ordered row list: offset first, then
limit (a negative limit means no bound). -/
def applyPage (limit offset : Option Int) (l : List FileRecord) : List FileRecord :=
  match limit with
  | none => pageOffset offset l
  | some n => if n < 0 then pageOffset offset l else (pageOffset offset l).take n.toNat

/-- `FileIndexer::search`: filter by the built conditions, order by the
chosen column, paginate, then decode each row, dropping rows whose
timestamps fail to decode.  SQLite's select grammar admits `OFFSET` only
after a `LIMIT` clause, so the SQL `search` builds for a query with an
offset but no limit fails at `prepare`. -/
def search (db : List FileRecord) (q : SearchQuery) :
    Except String (List FileRecord) :=
  if q.offset.isSome && !q.limit.isSome then
    Except.error "near OFFSET: SQL logic error"
  else
    Except.ok
      ((applyPage q.limit q.offset
        (List.insertionSort (sortRel (q.sort_key.getD SortKey.Name) q.desc)
          (db.filter (fun r => (searchConds q).all (fun c => evalCond c r))))).filterMap
        decodeRow)

/-- ORDER BY added_at DESC. -/
def addedDesc (a b : FileRecord) : Prop := b.added_at ≤ a.added_at

instance addedDescDec : DecidableRel addedDesc := fun a b =>
  inferInstanceAs (Decidable (b.added_at ≤ a.added_at))

instance addedDescTotal : IsTotal FileRecord addedDesc :=
  ⟨fun a b => (le_total b.added_at a.added_at).imp id id⟩

instance addedDescTrans : IsTrans FileRecord addedDesc :=
  ⟨fun _ _ _ hab hbc => le_trans hbc hab⟩

/-- `FileIndexer::recently_added`: ORDER BY added_at DESC LIMIT ?, then
the same row decoding as `search`. -/
def recently_added (db : List FileRecord) (limit : Int) : List FileRecord :=
  (applyPage (some limit) none (List.insertionSort addedDesc db)).filterMap decodeRow

/-- `COUNT(*)` of the rows in one `GROUP BY hash,size` group. -/
def keyCount (db : List FileRecord) (k : String × Int) : Nat :=
  db.countP (fun r => r.hash == some k.1 && r.size == k.2)

/-- The distinct `(hash, size)` keys of the rows with a non-NULL hash
(the groups produced by `GROUP BY hash,size` under
`WHERE hash IS NOT NULL`). -/
def dupKeys (db : List FileRecord) : List (String × Int) :=
  ((db.filter (fun r => r.hash.isSome)).map (fun r => (r.hash.getD "", r.size))).dedup

/-- The qualifying group keys (`HAVING c > 1`): the distinct
`(hash, size)` pairs having more than one record, in grouping order
before the count sort. -/
def dupPairs (db : List FileRecord) : List (String × Int) :=
  (dupKeys db).filter (fun k => decide (1 < keyCount db k))

/-- ORDER BY c DESC on group keys. -/
def countGe (db : List FileRecord) (a b : String × Int) : Prop :=
  keyCount db b ≤ keyCount db a

instance countGeDec (db : List FileRecord) : DecidableRel (countGe db) := fun a b =>
  inferInstanceAs (Decidable (keyCount db b ≤ keyCount db a))

instance countGeTotal (db : List FileRecord) : IsTotal (String × Int) (countGe db) :=
  ⟨fun a b => (le_total (keyCount db b) (keyCount db a)).imp id id⟩

instance countGeTrans (db : List FileRecord) : IsTrans (String × Int) (countGe db) :=
  ⟨fun _ _ _ hab hbc => le_trans hbc hab⟩

/-- The per-group path query of `duplicate_groups`:
`SELECT path FROM files WHERE hash = ? ORDER BY name` — note it filters
by hash only, not by size. -/
def pathsForHash (db : List FileRecord) (h : String) : List String :=
  (List.insertionSort (rowLe SortKey.Name)
    (db.filter (fun r => r.hash == some h))).map (fun r => r.path)

/-- `LIMIT ?` with a bound integer value (negative means no bound). -/
def limitTake (n : Int) (l : List (String × Int)) : List (String × Int) :=
  if n < 0 then l else l.take n.toNat

/-- `FileIndexer::duplicate_groups`: group non-NULL-hash rows by
`(hash, size)`, keep groups with more than one row, order by descending
count, truncate to the limit, then fetch each group's paths by hash
alone, ordered by name. -/
def duplicate_groups (db : List FileRecord) (limit : Int) : List DuplicateGroup :=
  (limitTake limit
    (List.insertionSort (countGe db)
      ((dupKeys db).filter (fun k => decide (1 < keyCount db k))))).map
    (fun k =>
      { hash := k.1, size := k.2, count := (keyCount db k : Int),
        paths := pathsForHash db k.1 })

/-- Fields the upsert overwrites on conflict agree (everything except
`added_at`). -/
def mutEq (a b : FileRecord) : Prop :=
  a.path = b.path ∧ a.name = b.name ∧ a.ext = b.ext ∧ a.size = b.size ∧
    a.modified = b.modified ∧ a.hash = b.hash

instance mutEqDec : ∀ a b, Decidable (mutEq a b) := fun a b =>
  inferInstanceAs (Decidable (_ ∧ _ ∧ _ ∧ _ ∧ _ ∧ _))

/-- Effective presence of a string filter field (non-empty string). -/
def presentStr (o : Option String) : Bool :=
  (o.filter (fun s => !s.isEmpty)).isSome

instance exceptDecEq {ε α : Type} [DecidableEq ε] [DecidableEq α] :
    DecidableEq (Except ε α) := fun x y =>
  match x, y with
  | Except.ok a, Except.ok b =>
    if h : a = b then isTrue (by rw [h]) else isFalse (fun hc => h (Except.ok.inj hc))
  | Except.error a, Except.error b =>
    if h : a = b then isTrue (by rw [h]) else isFalse (fun hc => h (Except.error.inj hc))
  | Except.ok _, Except.error _ => isFalse (fun hc => Except.noConfusion hc)
  | Except.error _, Except.ok _ => isFalse (fun hc => Except.noConfusion hc)

/-- Example rows used by the concrete witnesses below. -/
def rA : FileRecord := ⟨"/a", "a", none, 1, 0, 0, some "h"⟩

/-- Second example row, same hash and size as `rA`. -/
def rB : FileRecord := ⟨"/b", "b", none, 1, 0, 0, some "h"⟩

/-- Third example row: same hash as `rA`, different size. -/
def rC : FileRecord := ⟨"/c", "c", none, 2, 0, 0, some "h"⟩

/-- A row whose name matches "abc" only case-insensitively. -/
def cexRow : FileRecord := ⟨"/x", "ABC", none, 0, 0, 0, none⟩

/-- `rA`'s path re-built later with changed mutable fields and a fresh
`added_at`. -/
def rA2 : FileRecord := ⟨"/a", "a2", some "t", 3, 7, 99, none⟩

/-- `rA` re-built identically except a fresh `added_at`. -/
def rA3 : FileRecord := ⟨"/a", "a", none, 1, 0, 42, some "h"⟩

/-- A row whose stored `modified` timestamp is outside chrono's
representable range, so `decode_timestamp` fails on it. -/
def badTsRow : FileRecord := ⟨"/bad", "bad", none, 0, 9000000000000, 0, none⟩



theorem mem_filterMap_decode {l : List FileRecord} {r : FileRecord} :
    r ∈ l.filterMap decodeRow ↔ r ∈ l ∧ decodesRow r = true := by
  simp only [List.mem_filterMap]
  constructor
  · rintro ⟨a, ha, hd⟩
    unfold decodeRow at hd
    cases h : decodesRow a
    · rw [h] at hd; simp at hd
    · rw [h] at hd; simp at hd; subst hd; exact ⟨ha, h⟩
  · rintro ⟨hr, hd⟩
    exact ⟨r, hr, by simp [decodeRow, hd]⟩

theorem filterMap_decode_sublist : ∀ l : List FileRecord,
    List.Sublist (l.filterMap decodeRow) l := by
  intro l
  induction l with
  | nil => simp
  | cons x xs ih =>
    by_cases h : decodesRow x = true
    · simpa [List.filterMap_cons, decodeRow, h] using ih.cons₂ x
    · simpa [List.filterMap_cons, decodeRow, h] using ih.cons x

theorem pageOffset_sublist (O : Option Int) (l : List FileRecord) :
    List.Sublist (pageOffset O l) l := by
  unfold pageOffset
  cases O
  · exact List.Sublist.refl l
  · exact List.drop_sublist _ l

theorem applyPage_sublist (L O : Option Int) (l : List FileRecord) :
    List.Sublist (applyPage L O l) l := by
  cases L with
  | none => exact pageOffset_sublist O l
  | some n =>
    show List.Sublist (if n < 0 then pageOffset O l else (pageOffset O l).take n.toNat) l
    by_cases hn : n < 0
    · rw [if_pos hn]; exact pageOffset_sublist O l
    · rw [if_neg hn]; exact (List.take_sublist _ _).trans (pageOffset_sublist O l)

theorem search_mem_conds {db : List FileRecord} {q : SearchQuery}
    {rows : List FileRecord} {r : FileRecord}
    (hs : search db q = Except.ok rows) (hr : r ∈ rows) :
    r ∈ db ∧ (∀ c ∈ searchConds q, evalCond c r = true) ∧ decodesRow r = true := by
  unfold search at hs
  by_cases hg : (q.offset.isSome && !q.limit.isSome) = true
  · rw [if_pos hg] at hs; exact absurd hs (by simp)
  · rw [if_neg hg] at hs
    have hrows := (Except.ok.inj hs).symm
    subst hrows
    rcases mem_filterMap_decode.mp hr with ⟨hmem, hdec⟩
    have h2 : r ∈ List.insertionSort (sortRel (q.sort_key.getD SortKey.Name) q.desc)
        (db.filter (fun x => (searchConds q).all (fun c => evalCond c x))) :=
      (applyPage_sublist _ _ _).subset hmem
    have h3 : r ∈ db.filter (fun x => (searchConds q).all (fun c => evalCond c x)) :=
      (List.perm_insertionSort _ _).subset h2
    rw [List.mem_filter] at h3
    refine ⟨h3.1, ?_, hdec⟩
    intro c hc
    have hall := h3.2
    rw [List.all_eq_true] at hall
    exact hall c hc

/-- C7: for every store and every query with `date_from = d1` and/or
`date_to = d2`, `search` returns only rows whose `modified` timestamp is
at least 00:00:00 UTC of `d1` and at most 23:59:59 UTC of `d2`, both
bounds inclusive (dates modelled as days since 1970-01-01, so start of
day is `86400 * d` and end of day `86400 * d + 86399`). -/
theorem search_date_bounds : ∀ (db : List FileRecord) (q : SearchQuery)
    (rows : List FileRecord) (r : FileRecord),
    search db q = Except.ok rows → r ∈ rows →
    (∀ d, q.date_from = some d → startOfDay d ≤ r.modified) ∧
    (∀ d, q.date_to = some d → r.modified ≤ endOfDay d) := by
  intro db q rows r hs hr
  obtain ⟨-, hall, -⟩ := search_mem_conds hs hr
  constructor
  · intro d hd
    have hc : Cond.modGe (startOfDay d) ∈ searchConds q := by
      simp [searchConds, condBlocks, optBlock, hd]
    have he := hall _ hc
    simpa [evalCond] using he
  · intro d hd
    have hc : Cond.modLe (endOfDay d) ∈ searchConds q := by
      simp [searchConds, condBlocks, optBlock, hd]
    have he := hall _ hc
    simpa [evalCond] using he

/-- C8: during result iteration of `search` (well-formed, i.e. not the
offset-without-limit case) and of `recently_added`, a row whose stored
`modified` or `added_at` timestamp cannot be decoded into a valid
datetime is silently dropped from the returned sequence, and the
operation as a whole still succeeds. -/
theorem search_decode_drop : ∀ (db : List FileRecord) (q : SearchQuery) (n : Int),
    (q.offset.isSome = true → q.limit.isSome = true) →
    (∃ rows, search db q = Except.ok rows ∧
      (∀ r ∈ rows, decodesRow r = true) ∧
      (∀ r, decodesRow r = false → r ∉ rows)) ∧
    ((∀ r ∈ recently_added db n, decodesRow r = true) ∧
      (∀ r, decodesRow r = false → r ∉ recently_added db n)) := by
  intro db q n hgram
  have hg : (q.offset.isSome && !q.limit.isSome) = false := by
    cases ho : q.offset.isSome
    · simp
    · simp [hgram ho]
  have hsearch : search db q = Except.ok ((applyPage q.limit q.offset
      (List.insertionSort (sortRel (q.sort_key.getD SortKey.Name) q.desc)
        (db.filter (fun x => (searchConds q).all (fun c => evalCond c x))))).filterMap
      decodeRow) := by
    unfold search
    rw [hg]
    simp
  constructor
  · refine ⟨_, hsearch, ?_, ?_⟩
    · intro r hr
      exact (mem_filterMap_decode.mp hr).2
    · intro r hbad hr
      have hcontra := (mem_filterMap_decode.mp hr).2
      rw [hbad] at hcontra
      exact Bool.false_ne_true hcontra
  · constructor
    · intro r hr
      unfold recently_added at hr
      exact (mem_filterMap_decode.mp hr).2
    · intro r hbad hr
      unfold recently_added at hr
      have := (mem_filterMap_decode.mp hr).2
      rw [hbad] at this
      exact Bool.false_ne_true this

/-- C10: when a query's `sort_key` is absent, `search` behaves exactly as
with `SortKey.Name`, and with `desc = false` the returned rows are sorted
by name ascending, for every store and every combination of the other
query fields. -/
theorem search_default_sort_name_asc : ∀ (db : List FileRecord) (q : SearchQuery)
    (rows : List FileRecord),
    q.sort_key = none → q.desc = false → search db q = Except.ok rows →
    search db { q with sort_key := some SortKey.Name } = Except.ok rows ∧
    rows.Pairwise (fun a b => textLe a.name b.name) := by
  intro db q rows hk hd hs
  constructor
  · rw [← hs]
    unfold search
    rw [hk]
    rfl
  · unfold search at hs
    by_cases hg : (q.offset.isSome && !q.limit.isSome) = true
    · rw [if_pos hg] at hs; exact absurd hs (by simp)
    · rw [if_neg hg] at hs
      rw [hk, hd] at hs
      have hrows := (Except.ok.inj hs).symm
      subst hrows
      have hsorted : List.Sorted (sortRel ((none : Option SortKey).getD SortKey.Name) false)
          (List.insertionSort (sortRel ((none : Option SortKey).getD SortKey.Name) false)
            (db.filter (fun x => (searchConds q).all (fun c => evalCond c x)))) :=
        List.sorted_insertionSort _ _
      have hp := hsorted.sublist
        ((filterMap_decode_sublist _).trans (applyPage_sublist q.limit q.offset _))
      exact hp.imp (fun h => h)


/-- C9: a query whose `name_like` or `ext` field is the empty string
imposes no constraint: `search` results, the built SQL text and the bound
parameters are exactly those of the query with that field absent. -/
theorem search_empty_filter_noop : ∀ (db : List FileRecord) (q : SearchQuery),
    search db { q with name_like := some "" } = search db { q with name_like := none } ∧
    search db { q with ext := some "" } = search db { q with ext := none } ∧
    searchSql { q with name_like := some "" } = searchSql { q with name_like := none } ∧
    searchSql { q with ext := some "" } = searchSql { q with ext := none } ∧
    searchParams { q with name_like := some "" } = searchParams { q with name_like := none } ∧
    searchParams { q with ext := some "" } = searchParams { q with ext := none } := by
  intro db q
  exact ⟨rfl, rfl, rfl, rfl, rfl, rfl⟩

/-- C5 (code bug): a query with an offset but no limit makes `search`
build SQL whose ORDER BY clause is followed directly by OFFSET; SQLite's
select grammar admits OFFSET only after LIMIT, so `prepare` fails and
`search` returns an error instead of skipping rows, contradicting the
claim that every combination of present fields succeeds. -/
theorem search_offset_without_limit_fails :
    searchSql { offset := some 1 } =
      "SELECT path,name,ext,size,modified,added_at,hash FROM files ORDER BY name OFFSET 1" ∧
    search [rA] { offset := some 1 } = Except.error "near OFFSET: SQL logic error" :=
  ⟨rfl, rfl⟩

/-- C4 counterexample: two queries with identical field presence but
different `limit` values yield different SQL text, so the SQL text built
by `search` does not depend only on which fields are present — `limit`
(and `offset`) values are formatted into the text. -/
theorem searchSql_limit_value_cex :
    presentStr (SearchQuery.name_like { limit := some 1 }) =
      presentStr (SearchQuery.name_like { limit := some 2 }) ∧
    presentStr (SearchQuery.ext { limit := some 1 }) =
      presentStr (SearchQuery.ext { limit := some 2 }) ∧
    (SearchQuery.min_size { limit := some 1 }).isSome =
      (SearchQuery.min_size { limit := some 2 }).isSome ∧
    (SearchQuery.max_size { limit := some 1 }).isSome =
      (SearchQuery.max_size { limit := some 2 }).isSome ∧
    (SearchQuery.date_from { limit := some 1 }).isSome =
      (SearchQuery.date_from { limit := some 2 }).isSome ∧
    (SearchQuery.date_to { limit := some 1 }).isSome =
      (SearchQuery.date_to { limit := some 2 }).isSome ∧
    (SearchQuery.limit { limit := some 1 }).isSome =
      (SearchQuery.limit { limit := some 2 }).isSome ∧
    (SearchQuery.offset { limit := some 1 }).isSome =
      (SearchQuery.offset { limit := some 2 }).isSome ∧
    searchSql { limit := some 1 } ≠ searchSql { limit := some 2 } := by
  refine ⟨rfl, rfl, rfl, rfl, rfl, rfl, rfl, rfl, ?_⟩
  decide

theorem optBlock_str {α : Type} {o o' : Option α} (h : o.isSome = o'.isSome)
    (c : String) (f g : α → Cond × SqlValue) :
    (optBlock o c f).map Prod.fst = (optBlock o' c g).map Prod.fst := by
  cases o <;> cases o' <;> simp_all [optBlock]

/-- C4 amended: the filter values (name substring, extension, size
bounds, date bounds) are passed only as bound parameters, so the SQL text
depends only on which fields are present together with the sort key, the
direction and the values of `limit` and `offset`, which are formatted
into the text. -/
theorem searchSql_value_independent : ∀ q q' : SearchQuery,
    presentStr q.name_like = presentStr q'.name_like →
    presentStr q.ext = presentStr q'.ext →
    q.min_size.isSome = q'.min_size.isSome →
    q.max_size.isSome = q'.max_size.isSome →
    q.date_from.isSome = q'.date_from.isSome →
    q.date_to.isSome = q'.date_to.isSome →
    q.sort_key = q'.sort_key → q.desc = q'.desc →
    q.limit = q'.limit → q.offset = q'.offset →
    searchSql q = searchSql q' := by
  intro q q' h1 h2 h3 h4 h5 h6 hs hd hl ho
  unfold presentStr at h1 h2
  have e1 : ((optBlock (q.name_like.filter (fun s => !s.isEmpty)) "name LIKE ?"
      (fun s => (Cond.nameLike ("%" ++ s ++ "%"), SqlValue.text ("%" ++ s ++ "%")))).map Prod.fst)
      = ((optBlock (q'.name_like.filter (fun s => !s.isEmpty)) "name LIKE ?"
      (fun s => (Cond.nameLike ("%" ++ s ++ "%"), SqlValue.text ("%" ++ s ++ "%")))).map Prod.fst) :=
    optBlock_str h1 _ _ _
  have e2 : ((optBlock (q.ext.filter (fun s => !s.isEmpty)) "ext = ?"
      (fun s => (Cond.extEq (strLower s), SqlValue.text (strLower s)))).map Prod.fst)
      = ((optBlock (q'.ext.filter (fun s => !s.isEmpty)) "ext = ?"
      (fun s => (Cond.extEq (strLower s), SqlValue.text (strLower s)))).map Prod.fst) :=
    optBlock_str h2 _ _ _
  have e3 : ((optBlock q.min_size "size >= ?"
      (fun n => (Cond.sizeGe n, SqlValue.int n))).map Prod.fst)
      = ((optBlock q'.min_size "size >= ?"
      (fun n => (Cond.sizeGe n, SqlValue.int n))).map Prod.fst) :=
    optBlock_str h3 _ _ _
  have e4 : ((optBlock q.max_size "size <= ?"
      (fun n => (Cond.sizeLe n, SqlValue.int n))).map Prod.fst)
      = ((optBlock q'.max_size "size <= ?"
      (fun n => (Cond.sizeLe n, SqlValue.int n))).map Prod.fst) :=
    optBlock_str h4 _ _ _
  have e5 : ((optBlock q.date_from "modified >= ?"
      (fun d => (Cond.modGe (startOfDay d), SqlValue.int (startOfDay d)))).map Prod.fst)
      = ((optBlock q'.date_from "modified >= ?"
      (fun d => (Cond.modGe (startOfDay d), SqlValue.int (startOfDay d)))).map Prod.fst) :=
    optBlock_str h5 _ _ _
  have e6 : ((optBlock q.date_to "modified <= ?"
      (fun d => (Cond.modLe (endOfDay d), SqlValue.int (endOfDay d)))).map Prod.fst)
      = ((optBlock q'.date_to "modified <= ?"
      (fun d => (Cond.modLe (endOfDay d), SqlValue.int (endOfDay d)))).map Prod.fst) :=
    optBlock_str h6 _ _ _
  have hb : (condBlocks q).map Prod.fst = (condBlocks q').map Prod.fst := by
    unfold condBlocks
    simp only [List.map_append]
    rw [e1, e2, e3, e4, e5, e6]
  unfold searchSql
  rw [hb, hs, hd, hl, ho]

theorem searchSql_value_independent_witness :
    searchSql { name_like := some "abc", limit := some 7 } =
      searchSql { name_like := some "zzzz", limit := some 7 } :=
  searchSql_value_independent _ _ rfl rfl rfl rfl rfl rfl rfl rfl rfl rfl

theorem any_congr {α : Type} {l : List α} {f g : α → Bool}
    (h : ∀ x ∈ l, f x = g x) : l.any f = l.any g := by
  induction l with
  | nil => rfl
  | cons x xs ih =>
    simp only [List.any_cons]
    rw [h x (by simp), ih (fun y hy => h y (by simp [hy]))]

theorem any_isEmpty_tailsOf : ∀ t : List Char,
    (tailsOf t).any (fun x => x.isEmpty) = true
  | [] => rfl
  | c :: cs => by
    simp only [tailsOf, List.any_cons]
    rw [any_isEmpty_tailsOf cs]
    simp

theorem any_nilPrefix_tailsOf : ∀ t : List Char,
    (tailsOf t).any (fun u => ([] : List Char).isPrefixOf u) = true := by
  intro t
  cases t <;> simp [tailsOf, List.isPrefixOf]

theorem likeMatch_plain_pct : ∀ (p t : List Char), (∀ c ∈ p, c ≠ '%' ∧ c ≠ '_') →
    likeMatch (p ++ ['%']) t = (lowerChars p).isPrefixOf (lowerChars t) := by
  intro p
  induction p with
  | nil =>
    intro t _
    show likeMatch ['%'] t = _
    simp only [likeMatch, if_pos]
    rw [any_isEmpty_tailsOf t]
    simp [lowerChars, List.isPrefixOf]
  | cons a as ih =>
    intro t hfree
    obtain ⟨ha1, ha2⟩ := hfree a (by simp)
    have hfree' : ∀ c ∈ as, c ≠ '%' ∧ c ≠ '_' := fun c hc => hfree c (by simp [hc])
    cases t with
    | nil =>
      show likeMatch (a :: (as ++ ['%'])) [] = _
      simp only [likeMatch, if_neg ha1]
      simp [lowerChars, List.isPrefixOf]
    | cons c cs =>
      show likeMatch (a :: (as ++ ['%'])) (c :: cs) = _
      simp only [likeMatch, if_neg ha1, if_neg ha2]
      rw [ih cs hfree']
      simp [lowerChars, List.isPrefixOf]

theorem tailsOf_map_lower : ∀ t : List Char,
    tailsOf (lowerChars t) = (tailsOf t).map lowerChars
  | [] => rfl
  | c :: cs => by
    show tailsOf (asciiLower c :: lowerChars cs) = _
    simp only [tailsOf, List.map_cons]
    rw [tailsOf_map_lower cs]
    rfl

theorem likeMatch_ci (p t : List Char) (hfree : ∀ c ∈ p, c ≠ '%' ∧ c ≠ '_') :
    likeMatch ('%' :: (p ++ ['%'])) t =
      (tailsOf (lowerChars t)).any (fun u => (lowerChars p).isPrefixOf u) := by
  have h1 : likeMatch ('%' :: (p ++ ['%'])) t
      = (tailsOf t).any (fun u => likeMatch (p ++ ['%']) u) := by
    simp [likeMatch]
  rw [h1, any_congr (fun u _ => likeMatch_plain_pct (p := p) u hfree),
    tailsOf_map_lower, List.any_map]
  rfl

theorem pattern_toList (s : String) :
    ("%" ++ s ++ "%").toList = '%' :: (s.toList ++ ['%']) := by
  show (("%" ++ s ++ "%") : String).data = '%' :: (s.data ++ ['%'])
  simp [String.data_append]

/-- C3 amended: for a query whose only filter is a wildcard-free
`name_like = s`, `search` returns exactly the decodable records whose
name contains `s` as an ASCII-case-insensitive substring. -/
theorem search_name_filter_ci : ∀ (db : List FileRecord) (s : String)
    (rows : List FileRecord) (r : FileRecord),
    (∀ c ∈ s.toList, c ≠ '%' ∧ c ≠ '_') →
    search db { name_like := some s } = Except.ok rows →
    (r ∈ rows ↔ r ∈ db ∧ containsCI r.name s = true ∧ decodesRow r = true) := by
  intro db s rows r hfree hs
  have hrows : rows = (List.insertionSort (sortRel SortKey.Name false)
      (db.filter (fun x => (searchConds { name_like := some s }).all
        (fun c => evalCond c x)))).filterMap decodeRow :=
    (Except.ok.inj hs).symm
  subst hrows
  rw [mem_filterMap_decode, (List.perm_insertionSort _ _).mem_iff, List.mem_filter]
  have hP : ((searchConds { name_like := some s }).all (fun c => evalCond c r))
      = containsCI r.name s := by
    by_cases he : s.isEmpty = true
    · have hs0 : s = "" := (String.isEmpty_iff s).mp he
      subst hs0
      show true = containsCI r.name ""
      unfold containsCI
      rw [show lowerChars ("" : String).toList = [] from rfl,
        any_nilPrefix_tailsOf]
    · have hfalse : s.isEmpty = false := by
        cases hb : s.isEmpty
        · rfl
        · exact absurd hb he
      have hconds : searchConds { name_like := some s }
          = [Cond.nameLike ("%" ++ s ++ "%")] := by
        simp [searchConds, condBlocks, optBlock, Option.filter, hfalse]
      rw [hconds]
      have hall1 : ([Cond.nameLike ("%" ++ s ++ "%")].all (fun c => evalCond c r))
          = likeMatch ("%" ++ s ++ "%").toList r.name.toList := by
        simp [List.all_cons, evalCond]
      rw [hall1, pattern_toList, likeMatch_ci s.toList r.name.toList hfree]
      rfl
  rw [hP]
  constructor
  · rintro ⟨⟨hdb, hci⟩, hd⟩
    exact ⟨hdb, hci, hd⟩
  · rintro ⟨hdb, hci, hd⟩
    exact ⟨⟨hdb, hci⟩, hd⟩

/-- C3 counterexample: with default SQLite `LIKE`, a record whose name
contains the needle only under case-insensitive comparison is returned:
searching "abc" returns the row named "ABC" even though "ABC" does not
contain "abc" as a case-sensitive substring. -/
theorem search_name_case_insensitive_cex :
    search [cexRow] { name_like := some "abc" } = Except.ok [cexRow] ∧
    containsCS cexRow.name "abc" = false :=
  ⟨rfl, rfl⟩

theorem search_name_filter_ci_witness :
    cexRow ∈ [cexRow] ∧ containsCI cexRow.name "abc" = true ∧
      decodesRow cexRow = true :=
  (search_name_filter_ci [cexRow] "abc" [cexRow] cexRow (by decide) rfl).mp
    (by simp)

theorem search_date_bounds_witness :
    startOfDay 0 ≤ rA.modified ∧ rA.modified ≤ endOfDay 0 :=
  ⟨(search_date_bounds [rA] { date_from := some 0, date_to := some 0 } [rA] rA
      rfl (by simp)).1 0 rfl,
   (search_date_bounds [rA] { date_from := some 0, date_to := some 0 } [rA] rA
      rfl (by simp)).2 0 rfl⟩

theorem search_decode_drop_witness :
    (∃ rows, search [badTsRow] {} = Except.ok rows ∧
      (∀ r ∈ rows, decodesRow r = true) ∧
      (∀ r, decodesRow r = false → r ∉ rows)) ∧
    ((∀ r ∈ recently_added [badTsRow] 5, decodesRow r = true) ∧
      (∀ r, decodesRow r = false → r ∉ recently_added [badTsRow] 5)) :=
  search_decode_drop [badTsRow] {} 5 (fun h => Bool.noConfusion h)

theorem search_default_sort_name_asc_witness :
    search [rB, rA] { sort_key := some SortKey.Name } = Except.ok [rA, rB] ∧
    ([rA, rB] : List FileRecord).Pairwise (fun a b => textLe a.name b.name) :=
  search_default_sort_name_asc [rB, rA] {} [rA, rB] rfl rfl (by decide)

theorem upsert_mem_any {db : List FileRecord} {r old : FileRecord}
    (hmem : old ∈ db) (hp : old.path = r.path) :
    db.any (fun row => row.path == r.path) = true := by
  rw [List.any_eq_true]
  exact ⟨old, hmem, by simp [hp]⟩

theorem find_map_upd (r old : FileRecord) : ∀ (db : List FileRecord),
    (db.map (fun x => x.path)).Nodup → old ∈ db → old.path = r.path →
    (db.map (fun row => if row.path == r.path then { r with added_at := row.added_at }
        else row)).find? (fun row => row.path == r.path)
      = some { r with added_at := old.added_at } := by
  intro db
  induction db with
  | nil => intro _ h; exact absurd h (List.not_mem_nil old)
  | cons x xs ih =>
    intro hnd hmem hp
    rw [List.map_cons, List.nodup_cons] at hnd
    by_cases hx : (x.path == r.path) = true
    · have hxeq : old = x := by
        rcases List.mem_cons.mp hmem with h | h
        · exact h
        · exfalso
          apply hnd.1
          rw [List.mem_map]
          exact ⟨old, h, by rw [hp, eq_of_beq hx]⟩
      rw [List.map_cons, if_pos hx, List.find?_cons_of_pos]
      · rw [hxeq]
      · exact beq_self_eq_true r.path
    · have holdxs : old ∈ xs := by
        rcases List.mem_cons.mp hmem with h | h
        · exfalso; apply hx; rw [h] at hp; simp [hp]
        · exact h
      rw [List.map_cons, if_neg hx, List.find?_cons_of_neg]
      · exact ih hnd.2 holdxs hp
      · exact hx

theorem runIndex_append_of_disjoint : ∀ (rs db : List FileRecord),
    (∀ r ∈ rs, ∀ row ∈ db, row.path ≠ r.path) →
    (rs.map (fun x => x.path)).Nodup →
    runIndex db rs = db ++ rs := by
  intro rs
  induction rs with
  | nil => intro db _ _; simp [runIndex]
  | cons r rest ih =>
    intro db hdisj hnd
    rw [List.map_cons, List.nodup_cons] at hnd
    have hany : db.any (fun row => row.path == r.path) = false := by
      rw [List.any_eq_false]
      intro row hrow
      have hne : row.path ≠ r.path := hdisj r (by simp) row hrow
      simp [hne]
    have hup : upsert db r = db ++ [r] := by
      unfold upsert
      rw [hany]
      rfl
    show runIndex (upsert db r) rest = db ++ r :: rest
    rw [hup, ih (db ++ [r]) ?hdis hnd.2]
    · simp
    case hdis =>
      intro r2 hr2 row hrow
      rcases List.mem_append.mp hrow with h | h
      · exact hdisj r2 (by simp [hr2]) row h
      · rw [List.mem_singleton.mp h]
        intro hcontra
        apply hnd.1
        rw [List.mem_map]
        exact ⟨r2, hr2, hcontra.symm⟩

theorem upsert_absorb {db : List FileRecord} {old r2 : FileRecord}
    (hnd : (db.map (fun x => x.path)).Nodup) (hmem : old ∈ db) (hmut : mutEq old r2) :
    upsert db r2 = db := by
  have hany : db.any (fun row => row.path == r2.path) = true :=
    upsert_mem_any hmem hmut.1
  unfold upsert
  rw [hany]
  have hid : ∀ row ∈ db,
      (if row.path == r2.path then { r2 with added_at := row.added_at } else row) = row := by
    intro row hrow
    by_cases hb : (row.path == r2.path) = true
    · rw [if_pos hb]
      have hre : row = old :=
        List.inj_on_of_nodup_map hnd hrow hmem (by rw [eq_of_beq hb, ← hmut.1])
      subst hre
      obtain ⟨hp, hn, hex, hsz, hm, hh⟩ := hmut
      cases row
      cases r2
      simp_all
    · rw [if_neg hb]
  show db.map _ = db
  rw [List.map_congr_left hid, List.map_id']

theorem runIndex_absorb : ∀ {rs rs2 : List FileRecord} (db : List FileRecord),
    List.Forall₂ mutEq rs rs2 → (db.map (fun x => x.path)).Nodup →
    (∀ r ∈ rs, r ∈ db) → runIndex db rs2 = db := by
  intro rs rs2 db hf
  induction hf with
  | nil => intro _ _; rfl
  | @cons a b l1 l2 hab _ ih =>
    intro hnd hsub
    show runIndex (upsert db b) l2 = db
    rw [upsert_absorb hnd (hsub a (by simp)) hab]
    exact ih hnd (fun r hr => hsub r (by simp [hr]))

theorem index_dir_ok : ∀ (items : List WalkItem) (db : List FileRecord),
    (∀ it ∈ items, itemOk it = true) →
    index_dir db items = (runIndex db (fileRecords items),
      Except.ok (fileRecords items).length) := by
  intro items
  induction items with
  | nil => intro db _; rfl
  | cons it rest ih =>
    intro db hok
    have hrest : ∀ x ∈ rest, itemOk x = true := fun x hx => hok x (by simp [hx])
    cases it with
    | fail e => exact absurd (hok (WalkItem.fail e) (by simp)) (by simp [itemOk])
    | entry isFile build =>
      cases isFile with
      | false =>
        show index_dir db rest = _
        rw [ih db hrest]
        rfl
      | true =>
        cases build with
        | error e =>
          exact absurd (hok (WalkItem.entry true (Except.error e)) (by simp))
            (by simp [itemOk])
        | ok r =>
          show (match index_dir (upsert db r) rest with
            | (db1, Except.ok n) => (db1, Except.ok (n + 1))
            | (db1, Except.error e) => (db1, Except.error e)) = _
          rw [ih (upsert db r) hrest]
          rfl

theorem index_dir_err : ∀ (pre : List WalkItem) (db : List FileRecord)
    (bad : WalkItem) (post : List WalkItem) (e : String),
    (∀ it ∈ pre, itemOk it = true) → itemErr bad = some e →
    index_dir db (pre ++ bad :: post) =
      (runIndex db (fileRecords pre), Except.error e) := by
  intro pre
  induction pre with
  | nil =>
    intro db bad post e _ hbad
    cases bad with
    | fail e2 =>
      have he : e2 = e := Option.some.inj hbad
      subst he
      rfl
    | entry isFile build =>
      cases isFile with
      | false => exact absurd hbad (by simp [itemErr])
      | true =>
        cases build with
        | ok r => exact absurd hbad (by simp [itemErr])
        | error e2 =>
          have he : e2 = e := Option.some.inj hbad
          subst he
          rfl
  | cons it rest ih =>
    intro db bad post e hok hbad
    have hrest : ∀ x ∈ rest, itemOk x = true := fun x hx => hok x (by simp [hx])
    cases it with
    | fail e2 => exact absurd (hok (WalkItem.fail e2) (by simp)) (by simp [itemOk])
    | entry isFile build =>
      cases isFile with
      | false =>
        show index_dir db (rest ++ bad :: post) = _
        rw [ih db bad post e hrest hbad]
        rfl
      | true =>
        cases build with
        | error e2 =>
          exact absurd (hok (WalkItem.entry true (Except.error e2)) (by simp))
            (by simp [itemOk])
        | ok r =>
          show (match index_dir (upsert db r) (rest ++ bad :: post) with
            | (db1, Except.ok n) => (db1, Except.ok (n + 1))
            | (db1, Except.error e1) => (db1, Except.error e1)) = _
          rw [ih (upsert db r) bad post e hrest hbad]
          rfl

theorem fileRecords_okStream : ∀ rs : List FileRecord, fileRecords (okStream rs) = rs
  | [] => rfl
  | r :: rest => by
    show r :: fileRecords (okStream rest) = r :: rest
    rw [fileRecords_okStream rest]

theorem okStream_ok (rs : List FileRecord) : ∀ it ∈ okStream rs, itemOk it = true := by
  intro it hit
  rw [okStream, List.mem_map] at hit
  obtain ⟨r, _, hr⟩ := hit
  rw [← hr]
  rfl

/-- C6: `index_dir` returns an error as soon as traversal or any single
file's record build fails, performing no further upserts for that run
(the store reflects exactly the good prefix); when no error occurs it
returns the count of regular files processed, with non-regular entries
skipped silently and not counted. -/
theorem index_dir_fail_fast :
    (∀ (db : List FileRecord) (items : List WalkItem),
      (∀ it ∈ items, itemOk it = true) →
      index_dir db items = (runIndex db (fileRecords items),
        Except.ok (fileRecords items).length)) ∧
    (∀ (db : List FileRecord) (pre : List WalkItem) (bad : WalkItem)
      (post : List WalkItem) (e : String),
      (∀ it ∈ pre, itemOk it = true) → itemErr bad = some e →
      index_dir db (pre ++ bad :: post) =
        (runIndex db (fileRecords pre), Except.error e)) :=
  ⟨fun db items h => index_dir_ok items db h,
   fun db pre bad post e h1 h2 => index_dir_err pre db bad post e h1 h2⟩

theorem index_dir_fail_fast_witness :
    index_dir [] [WalkItem.entry false (Except.ok rB), WalkItem.entry true (Except.ok rA)]
      = ([rA], Except.ok 1) ∧
    index_dir [] [WalkItem.entry true (Except.ok rA), WalkItem.fail "boom",
      WalkItem.entry true (Except.ok rB)] = ([rA], Except.error "boom") := by
  constructor
  · rw [index_dir_fail_fast.1 [] _ (by decide)]
    rfl
  · show index_dir [] ([WalkItem.entry true (Except.ok rA)] ++ WalkItem.fail "boom" ::
        [WalkItem.entry true (Except.ok rB)]) = ([rA], Except.error "boom")
    rw [index_dir_fail_fast.2 [] [WalkItem.entry true (Except.ok rA)]
      (WalkItem.fail "boom") [WalkItem.entry true (Except.ok rB)] "boom" (by decide) rfl]
    rfl

/-- C1: upserting a record for a path already in the store replaces the
mutable fields (name, ext, size, modified, hash) but keeps the stored
`added_at` and the record count; consequently indexing the same directory
twice (same paths and mutable fields, fresh `added_at` stamps) leaves the
store and the reported count exactly as after the first run. -/
theorem upsert_preserves_added_at_reindex :
    (∀ (db : List FileRecord) (r old : FileRecord),
      (db.map (fun x => x.path)).Nodup → old ∈ db → old.path = r.path →
      findRow (upsert db r) r.path = some { r with added_at := old.added_at } ∧
      (upsert db r).length = db.length) ∧
    (∀ rs rs2 : List FileRecord,
      (rs.map (fun x => x.path)).Nodup → List.Forall₂ mutEq rs rs2 →
      (index_dir (index_dir [] (okStream rs)).1 (okStream rs2)).1 =
        (index_dir [] (okStream rs)).1 ∧
      (index_dir (index_dir [] (okStream rs)).1 (okStream rs2)).2 =
        (index_dir [] (okStream rs)).2) := by
  constructor
  · intro db r old hnd hmem hp
    have hany : db.any (fun row => row.path == r.path) = true := upsert_mem_any hmem hp
    have hup : upsert db r = db.map (fun row =>
        if row.path == r.path then { r with added_at := row.added_at } else row) := by
      unfold upsert
      rw [hany]
      rfl
    constructor
    · rw [hup]
      exact find_map_upd r old db hnd hmem hp
    · rw [hup, List.length_map]
  · intro rs rs2 hnd hf
    have hrun1 : runIndex [] rs = rs := by
      have h0 : runIndex ([] : List FileRecord) rs = [] ++ rs :=
        runIndex_append_of_disjoint rs []
          (fun r _ row hrow => absurd hrow (List.not_mem_nil row)) hnd
      rw [h0, List.nil_append]
    have h1 : index_dir [] (okStream rs) = (rs, Except.ok rs.length) := by
      rw [index_dir_ok (okStream rs) [] (okStream_ok rs), fileRecords_okStream, hrun1]
    have hrun2 : runIndex rs rs2 = rs :=
      runIndex_absorb rs hf hnd (fun r hr => hr)
    have h2 : index_dir rs (okStream rs2) = (rs, Except.ok rs.length) := by
      rw [index_dir_ok (okStream rs2) rs (okStream_ok rs2), fileRecords_okStream, hrun2,
        hf.length_eq]
    rw [h1]
    constructor
    · show (index_dir rs (okStream rs2)).1 = rs
      rw [h2]
    · show (index_dir rs (okStream rs2)).2 = Except.ok rs.length
      rw [h2]

theorem upsert_preserves_added_at_reindex_witness :
    (findRow (upsert [rA] rA2) rA2.path = some { rA2 with added_at := rA.added_at } ∧
      (upsert [rA] rA2).length = [rA].length) ∧
    ((index_dir (index_dir [] (okStream [rA])).1 (okStream [rA3])).1 =
        (index_dir [] (okStream [rA])).1 ∧
      (index_dir (index_dir [] (okStream [rA])).1 (okStream [rA3])).2 =
        (index_dir [] (okStream [rA])).2) :=
  ⟨upsert_preserves_added_at_reindex.1 [rA] rA2 rA (by decide) (by simp) rfl,
   upsert_preserves_added_at_reindex.2 [rA] [rA3] (by decide)
     (List.Forall₂.cons ⟨rfl, rfl, rfl, rfl, rfl, rfl⟩ List.Forall₂.nil)⟩

/-- C2 counterexample: with three records sharing hash "h" but one of a
different size, the single reported group has `count = 2` yet three
member paths, including a path whose record's size differs from the
group's size — so member paths are not the records sharing the group's
`(hash, size)` pair and `count` is not the number of member paths. -/
theorem duplicate_groups_hash_only_paths_cex :
    duplicate_groups [rA, rB, rC] 10 =
      [{ hash := "h", size := 1, count := 2, paths := ["/a", "/b", "/c"] }] ∧
    (∃ g ∈ duplicate_groups [rA, rB, rC] 10,
      (g.paths.length : Int) ≠ g.count ∧
      ∃ p ∈ g.paths, ∀ r ∈ [rA, rB, rC], r.path = p → r.size ≠ g.size) := by
  constructor
  · decide
  · decide

theorem limitTake_sublist (n : Int) (l : List (String × Int)) :
    List.Sublist (limitTake n l) l := by
  unfold limitTake
  by_cases hn : n < 0
  · rw [if_pos hn]
  · rw [if_neg hn]
    exact List.take_sublist _ _

theorem mem_dupPairs_of_count {db : List FileRecord} {h : String} {sz : Int}
    (hc : 1 < keyCount db (h, sz)) : (h, sz) ∈ dupPairs db := by
  unfold dupPairs
  rw [List.mem_filter]
  constructor
  · unfold dupKeys
    rw [List.mem_dedup, List.mem_map]
    have hpos : 0 < keyCount db (h, sz) := lt_trans one_pos hc
    unfold keyCount at hpos
    obtain ⟨r, hrdb, hr⟩ := List.countP_pos_iff.mp hpos
    rw [Bool.and_eq_true, beq_iff_eq, beq_iff_eq] at hr
    refine ⟨r, ?_, ?_⟩
    · rw [List.mem_filter]
      refine ⟨hrdb, ?_⟩
      rw [hr.1]
      rfl
    · rw [hr.1, hr.2]
      rfl
  · exact decide_eq_true hc

/-- C2 amended: groups are exactly the `(hash, size)` pairs with more
than one record — every group's pair qualifies, the pairs are distinct,
the output length is exactly the number of qualifying pairs clamped to
the `LIMIT`, and whenever the limit does not cut, every qualifying pair
appears — ordered by descending member count; each group's `count` is
the number of records with that `(hash, size)` pair, while its member
paths are the paths of all records sharing the group's hash (regardless
of size), ordered by name. -/
theorem duplicate_groups_spec : ∀ (db : List FileRecord) (lim : Int),
    ((duplicate_groups db lim).Pairwise (fun g1 g2 => g2.count ≤ g1.count)) ∧
    (0 ≤ lim → (duplicate_groups db lim).length ≤ lim.toNat) ∧
    ((duplicate_groups db lim).length =
      if lim < 0 then (dupPairs db).length
      else min lim.toNat (dupPairs db).length) ∧
    (((duplicate_groups db lim).map (fun g => (g.hash, g.size))).Nodup) ∧
    ((lim < 0 ∨ (dupPairs db).length ≤ lim.toNat) →
      ∀ h sz, 1 < keyCount db (h, sz) →
      ∃ g ∈ duplicate_groups db lim, g.hash = h ∧ g.size = sz) ∧
    (∀ g ∈ duplicate_groups db lim,
      g.count = (keyCount db (g.hash, g.size) : Int) ∧
      1 < keyCount db (g.hash, g.size) ∧
      (∀ p, p ∈ g.paths ↔ ∃ r ∈ db, r.hash = some g.hash ∧ r.path = p) ∧
      (∃ rs : List FileRecord,
        List.Perm rs (db.filter (fun r => r.hash == some g.hash)) ∧
        List.Pairwise (rowLe SortKey.Name) rs ∧
        g.paths = rs.map (fun r => r.path))) := by
  intro db lim
  have hsorted : List.Sorted (countGe db)
      (List.insertionSort (countGe db) (dupPairs db)) :=
    List.sorted_insertionSort _ _
  have htaken : (limitTake lim
      (List.insertionSort (countGe db) (dupPairs db))).Pairwise (countGe db) :=
    hsorted.sublist (limitTake_sublist _ _)
  have hmemk : ∀ k ∈ limitTake lim
      (List.insertionSort (countGe db) (dupPairs db)), 1 < keyCount db k := by
    intro k hk
    have hk2 : k ∈ List.insertionSort (countGe db) (dupPairs db) :=
      (limitTake_sublist _ _).subset hk
    have hk3 := (List.perm_insertionSort _ _).subset hk2
    unfold dupPairs at hk3
    rw [List.mem_filter] at hk3
    exact of_decide_eq_true hk3.2
  have hkeys : (duplicate_groups db lim).map (fun g => (g.hash, g.size))
      = limitTake lim (List.insertionSort (countGe db) (dupPairs db)) := by
    show (List.map _ (limitTake lim
      (List.insertionSort (countGe db) (dupPairs db)))).map _ = _
    rw [List.map_map]
    have hcongr : ∀ k ∈ limitTake lim
        (List.insertionSort (countGe db) (dupPairs db)),
        (((k.1, k.2)) : String × Int) = k := fun k _ => rfl
    exact (List.map_congr_left hcongr).trans (List.map_id' _)
  refine ⟨?_, ?_, ?_, ?_, ?_, ?_⟩
  · unfold duplicate_groups
    rw [List.pairwise_map]
    exact htaken.imp (fun hab => Nat.cast_le.mpr hab)
  · intro hl
    unfold duplicate_groups limitTake
    rw [List.length_map, if_neg (by omega)]
    exact List.length_take_le _ _
  · show (List.map _ (limitTake lim
      (List.insertionSort (countGe db) (dupPairs db)))).length = _
    rw [List.length_map]
    have hlen : (List.insertionSort (countGe db) (dupPairs db)).length
        = (dupPairs db).length :=
      (List.perm_insertionSort _ _).length_eq
    unfold limitTake
    by_cases hl : lim < 0
    · rw [if_pos hl, if_pos hl, hlen]
    · rw [if_neg hl, if_neg hl, List.length_take, hlen]
  · rw [hkeys]
    have hnd : (dupPairs db).Nodup := by
      unfold dupPairs dupKeys
      exact (List.nodup_dedup _).filter _
    exact ((List.perm_insertionSort (countGe db)
      (dupPairs db)).nodup_iff.mpr hnd).sublist (limitTake_sublist _ _)
  · intro hno h sz hcount
    have hkmem : (h, sz) ∈ dupPairs db := mem_dupPairs_of_count hcount
    have hsortmem : (h, sz) ∈ List.insertionSort (countGe db) (dupPairs db) :=
      (List.perm_insertionSort _ _).mem_iff.mpr hkmem
    have hintake : (h, sz) ∈ limitTake lim
        (List.insertionSort (countGe db) (dupPairs db)) := by
      unfold limitTake
      by_cases hl2 : lim < 0
      · rw [if_pos hl2]
        exact hsortmem
      · rw [if_neg hl2]
        have hle : (List.insertionSort (countGe db) (dupPairs db)).length
            ≤ lim.toNat := by
          rw [(List.perm_insertionSort _ _).length_eq]
          rcases hno with hl | hl
          · exact absurd hl hl2
          · exact hl
        rw [List.take_of_length_le hle]
        exact hsortmem
    refine ⟨⟨h, sz, (keyCount db (h, sz) : Int), pathsForHash db h⟩, ?_, rfl, rfl⟩
    unfold duplicate_groups
    rw [List.mem_map]
    exact ⟨(h, sz), hintake, rfl⟩
  · intro g hg
    unfold duplicate_groups at hg
    rw [List.mem_map] at hg
    obtain ⟨k, hk, hgk⟩ := hg
    subst hgk
    refine ⟨rfl, hmemk k hk, ?_, ?_⟩
    · intro p
      unfold pathsForHash
      rw [List.mem_map]
      constructor
      · rintro ⟨r, hr, hp⟩
        have hr2 := (List.perm_insertionSort _ _).subset hr
        rw [List.mem_filter] at hr2
        exact ⟨r, hr2.1, by simpa using hr2.2, hp⟩
      · rintro ⟨r, hrdb, hh, hp⟩
        refine ⟨r, ?_, hp⟩
        rw [(List.perm_insertionSort _ _).mem_iff, List.mem_filter]
        exact ⟨hrdb, by simp [hh]⟩
    · exact ⟨List.insertionSort (rowLe SortKey.Name)
        (db.filter (fun r => r.hash == some k.1)),
        List.perm_insertionSort _ _, List.sorted_insertionSort _ _, rfl⟩

theorem duplicate_groups_spec_witness :
    DuplicateGroup.count { hash := "h", size := 1, count := 2, paths := ["/a", "/b", "/c"] } =
      (keyCount [rA, rB, rC] ("h", 1) : Int) ∧
    (duplicate_groups [rA, rB, rC] 10).length ≤ (10 : Int).toNat ∧
    (∃ g ∈ duplicate_groups [rA, rB, rC] 10, g.hash = "h" ∧ g.size = 1) :=
  ⟨((duplicate_groups_spec [rA, rB, rC] 10).2.2.2.2.2
      { hash := "h", size := 1, count := 2, paths := ["/a", "/b", "/c"] } (by decide)).1,
   (duplicate_groups_spec [rA, rB, rC] 10).2.1 (by decide),
   (duplicate_groups_spec [rA, rB, rC] 10).2.2.2.2.1 (Or.inr (by decide)) "h" 1 (by decide)⟩

end RustFinder
